import Mathlib

/-!
# Verification of `SWRCache` (src/core/cache.py)

A shallow embedding of the bounded TTL/LRU cache `SWRCache` from
`src/core/cache.py`, together with proofs of its specified properties.

The Python state is
  `self.cache : Dict[str, Tuple[Any, float]]`  (key -> (value, timestamp))
  `self.order : List[str]`                     (LRU order, front = oldest)
We embed the dict as an association list `List (String × V × Int)`
(dict keys are unique; only membership, lookup, length, deletion and
insert-or-replace are used, so the association list is a faithful model),
the recency list as `List String`, and timestamps/`ttl`/`max_size` as `Int`.

Python operations that can raise are modelled as `Option`-valued:
  * `list.remove(x)` raises `ValueError` when `x` is absent  → `listRemove`
  * `list.pop(0)` raises `IndexError` on the empty list      → `pop0`
  * `del d[k]` raises `KeyError` when `k` is absent          → `delKey`
A `none` result of `get`/`set` means the Python call raises an exception.
-/

/-- `list.remove(k)`: remove the first occurrence of `k`;
`none` models Python's `ValueError` when `k` is absent. -/
def listRemove (k : String) : List String → Option (List String)
  | [] => none
  | x :: xs => if x = k then some xs else (listRemove k xs).map (fun ys => x :: ys)

/-- `list.pop(0)`: detach the front element;
`none` models Python's `IndexError` on the empty list. -/
def pop0 : List String → Option (String × List String)
  | [] => none
  | x :: xs => some (x, xs)

/-- `d[k]` / `k in d` combined: the entry stored under `k`, if any
(first match; keys are unique in the states reachable from construction). -/
def lookupKey {V : Type} (k : String) : List (String × V × Int) → Option (V × Int)
  | [] => none
  | (k₁, e) :: rest => if k₁ = k then some e else lookupKey k rest

/-- `k in d` as a Bool. -/
def hasKey {V : Type} (k : String) (l : List (String × V × Int)) : Bool :=
  (lookupKey k l).isSome

/-- Remove the first entry stored under `k` (helper for `delKey`). -/
def eraseKey {V : Type} (k : String) : List (String × V × Int) → List (String × V × Int)
  | [] => []
  | (k₁, e) :: rest => if k₁ = k then rest else (k₁, e) :: eraseKey k rest

/-- `del d[k]`: `none` models Python's `KeyError` when `k` is absent. -/
def delKey {V : Type} (k : String) (l : List (String × V × Int)) :
    Option (List (String × V × Int)) :=
  if hasKey k l then some (eraseKey k l) else none

/-- `d[k] = e`: replace the entry under `k` in place, or append a new one. -/
def setKey {V : Type} (k : String) (e : V × Int) :
    List (String × V × Int) → List (String × V × Int)
  | [] => [(k, e)]
  | (k₁, e₁) :: rest => if k₁ = k then (k, e) :: rest else (k₁, e₁) :: setKey k e rest

/-- The state of `SWRCache` (src/core/cache.py, lines 5-15). -/
structure SWRCache (V : Type) where
  ttl : Int
  max_size : Int
  cache : List (String × V × Int)
  order : List String
  deriving Repr, DecidableEq

/-- `SWRCache.__init__(ttl, max_size)` (lines 11-15): stores both parameters
unvalidated and starts with an empty mapping and empty recency order. -/
def SWRCache.init (V : Type) (ttl max_size : Int) : SWRCache V :=
  { ttl := ttl, max_size := max_size, cache := [], order := [] }

/-- `SWRCache.get(key)` (lines 17-29), at simulated time `now` (`time.time()`).
Returns `some (result, newState)`; `none` models a raised exception. -/
def SWRCache.get {V : Type} (c : SWRCache V) (key : String) (now : Int) :
    Option (Option V × SWRCache V) :=
  match lookupKey key c.cache with
  | none => some (none, c)
  | some (value, timestamp) =>
    if now - timestamp < c.ttl then
      -- Move to end for LRU
      match listRemove key c.order with
      | none => none
      | some o => some (some value, { c with order := o ++ [key] })
    else
      -- Expired, remove
      match delKey key c.cache with
      | none => none
      | some m =>
        match listRemove key c.order with
        | none => none
        | some o => some (none, { c with cache := m, order := o })

/-- `SWRCache.set(key, value)` (lines 31-39), at simulated time `now`.
`none` models a raised exception. -/
def SWRCache.set {V : Type} (c : SWRCache V) (key : String) (value : V) (now : Int) :
    Option (SWRCache V) :=
  let step1 : Option (SWRCache V) :=
    if hasKey key c.cache then
      match listRemove key c.order with
      | none => none
      | some o => some { c with order := o }
    else if (c.cache.length : Int) ≥ c.max_size then
      -- Evict oldest
      match pop0 c.order with
      | none => none
      | some (oldest, rest) =>
        match delKey oldest c.cache with
        | none => none
        | some m => some { c with cache := m, order := rest }
    else some c
  match step1 with
  | none => none
  | some c₁ =>
    some { c₁ with cache := setKey key (value, now) c₁.cache, order := c₁.order ++ [key] }

/-- Modelled from the spec: `clear()` "removes all entries and resets recency
order to empty" (spec §4.1). The class body in src/core/cache.py defines only
`__init__`, `get` and `set` — `clear` is missing from the source even though
callers (e.g. src/api/moderation.py line 84) invoke it. -/
def SWRCache.clearAll {V : Type} (c : SWRCache V) : SWRCache V :=
  { c with cache := [], order := [] }

/-- The method names defined in the body of `class SWRCache`
(src/core/cache.py lines 5-39). -/
def SWRCache.definedMethods : List String :=
  ["__init__", "get", "set"]

/-- One cache operation, for reasoning about operation sequences. -/
inductive CacheOp (V : Type) where
  | get (key : String) (now : Int)
  | set (key : String) (value : V) (now : Int)
  | clearAll

/-- Run one operation; `none` models a raised exception. -/
def applyOp {V : Type} (c : SWRCache V) : CacheOp V → Option (SWRCache V)
  | .get k now => (c.get k now).map Prod.snd
  | .set k v now => c.set k v now
  | .clearAll => some c.clearAll

/-- Run a sequence of operations; `none` models a raised exception. -/
def runOps {V : Type} (c : SWRCache V) : List (CacheOp V) → Option (SWRCache V)
  | [] => some c
  | op :: rest =>
    match applyOp c op with
    | none => none
    | some c₁ => runOps c₁ rest

/-- The structural invariant of a cache state: the keys of the mapping are a
permutation of the recency order, and the recency order has no duplicates. -/
def CacheInv {V : Type} (c : SWRCache V) : Prop :=
  (c.cache.map Prod.fst).Perm c.order ∧ c.order.Nodup

/-! ## Lemmas about the list-level primitives -/

theorem lookupKey_isSome_iff {V : Type} (k : String) (l : List (String × V × Int)) :
    (lookupKey k l).isSome ↔ k ∈ l.map Prod.fst := by
  induction l with
  | nil => simp [lookupKey]
  | cons p rest ih =>
    obtain ⟨k₁, e⟩ := p
    by_cases h : k₁ = k
    · subst h; simp [lookupKey]
    · simp [lookupKey, h, ih, Ne.symm h]

theorem lookupKey_eq_none_iff {V : Type} (k : String) (l : List (String × V × Int)) :
    lookupKey k l = none ↔ k ∉ l.map Prod.fst := by
  rw [← lookupKey_isSome_iff]
  cases lookupKey k l <;> simp

theorem mem_of_lookupKey_eq_some {V : Type} {k : String} {l : List (String × V × Int)}
    {e : V × Int} (h : lookupKey k l = some e) : k ∈ l.map Prod.fst := by
  rw [← lookupKey_isSome_iff, h]; rfl

theorem listRemove_isSome_iff (k : String) (l : List String) :
    (listRemove k l).isSome ↔ k ∈ l := by
  induction l with
  | nil => simp [listRemove]
  | cons x xs ih =>
    by_cases h : x = k
    · subst h; simp [listRemove]
    · simp [listRemove, h, Ne.symm h]
      cases hr : listRemove k xs <;> simp_all

theorem listRemove_perm {k : String} {l l' : List String}
    (h : listRemove k l = some l') : l.Perm (k :: l') := by
  induction l generalizing l' with
  | nil => simp [listRemove] at h
  | cons x xs ih =>
    by_cases hx : x = k
    · subst hx
      simp [listRemove] at h
      subst h
      exact List.Perm.refl _
    · simp only [listRemove, if_neg hx] at h
      cases hr : listRemove k xs with
      | none => rw [hr] at h; simp at h
      | some ys =>
        rw [hr] at h
        simp at h
        subst h
        exact (List.Perm.cons x (ih hr)).trans (List.Perm.swap k x ys)

theorem listRemove_not_mem {k : String} {l l' : List String}
    (hnd : l.Nodup) (h : listRemove k l = some l') : k ∉ l' := by
  have hp := (listRemove_perm h).nodup hnd
  exact (List.nodup_cons.mp hp).1

theorem listRemove_nodup {k : String} {l l' : List String}
    (hnd : l.Nodup) (h : listRemove k l = some l') : l'.Nodup := by
  have hp := (listRemove_perm h).nodup hnd
  exact (List.nodup_cons.mp hp).2

theorem map_fst_eraseKey_perm {V : Type} {k : String} {l : List (String × V × Int)}
    (h : k ∈ l.map Prod.fst) :
    (l.map Prod.fst).Perm (k :: (eraseKey k l).map Prod.fst) := by
  induction l with
  | nil => simp at h
  | cons p rest ih =>
    obtain ⟨k₁, e⟩ := p
    by_cases hk : k₁ = k
    · subst hk; simp [eraseKey]
    · have hmem : k ∈ rest.map Prod.fst := by
        simp only [List.map_cons, List.mem_cons] at h
        rcases h with h | h
        · exact absurd h.symm hk
        · exact h
      have h2 : (k₁ :: rest.map Prod.fst).Perm
          (k :: k₁ :: (eraseKey k rest).map Prod.fst) :=
        (List.Perm.cons k₁ (ih hmem)).trans (List.Perm.swap k k₁ _)
      simpa [eraseKey, hk] using h2

theorem lookupKey_eraseKey_self {V : Type} {k : String} {l : List (String × V × Int)}
    (hnd : (l.map Prod.fst).Nodup) : lookupKey k (eraseKey k l) = none := by
  induction l with
  | nil => simp [eraseKey, lookupKey]
  | cons p rest ih =>
    obtain ⟨k₁, e⟩ := p
    simp only [List.map_cons, List.nodup_cons] at hnd
    by_cases hk : k₁ = k
    · subst hk
      simp only [eraseKey, if_pos rfl]
      rw [lookupKey_eq_none_iff]
      exact hnd.1
    · simp [eraseKey, hk, lookupKey, ih hnd.2]

theorem lookupKey_eraseKey_ne {V : Type} {j k : String} (hjk : j ≠ k)
    (l : List (String × V × Int)) : lookupKey j (eraseKey k l) = lookupKey j l := by
  have hkj : ¬(k = j) := fun h => hjk h.symm
  induction l with
  | nil => rfl
  | cons p rest ih =>
    obtain ⟨k₁, e⟩ := p
    by_cases hk : k₁ = k
    · subst hk
      simp [eraseKey, lookupKey, hkj]
    · by_cases hj : k₁ = j
      · subst hj; simp [eraseKey, hk, lookupKey]
      · simp [eraseKey, hk, lookupKey, hj, ih]

theorem lookupKey_setKey_self {V : Type} (k : String) (e : V × Int)
    (l : List (String × V × Int)) : lookupKey k (setKey k e l) = some e := by
  induction l with
  | nil => simp [setKey, lookupKey]
  | cons p rest ih =>
    obtain ⟨k₁, e₁⟩ := p
    by_cases hk : k₁ = k
    · subst hk; simp [setKey, lookupKey]
    · simp [setKey, hk, lookupKey, ih]

theorem lookupKey_setKey_ne {V : Type} {j k : String} (hjk : j ≠ k) (e : V × Int)
    (l : List (String × V × Int)) : lookupKey j (setKey k e l) = lookupKey j l := by
  have hkj : ¬(k = j) := fun h => hjk h.symm
  induction l with
  | nil => simp [setKey, lookupKey, hkj]
  | cons p rest ih =>
    obtain ⟨k₁, e₁⟩ := p
    by_cases hk : k₁ = k
    · subst hk
      simp [setKey, lookupKey, hkj]
    · simp [setKey, hk, lookupKey, ih]

theorem map_fst_setKey_mem {V : Type} {k : String} (e : V × Int)
    {l : List (String × V × Int)} (h : k ∈ l.map Prod.fst) :
    (setKey k e l).map Prod.fst = l.map Prod.fst := by
  induction l with
  | nil => simp at h
  | cons p rest ih =>
    obtain ⟨k₁, e₁⟩ := p
    by_cases hk : k₁ = k
    · subst hk; simp [setKey]
    · have hmem : k ∈ rest.map Prod.fst := by
        simp only [List.map_cons, List.mem_cons] at h
        rcases h with h | h
        · exact absurd h.symm hk
        · exact h
      simp [setKey, hk, ih hmem]

theorem map_fst_setKey_not_mem {V : Type} {k : String} (e : V × Int)
    {l : List (String × V × Int)} (h : k ∉ l.map Prod.fst) :
    (setKey k e l).map Prod.fst = l.map Prod.fst ++ [k] := by
  induction l with
  | nil => simp [setKey]
  | cons p rest ih =>
    obtain ⟨k₁, e₁⟩ := p
    simp only [List.map_cons, List.mem_cons, not_or] at h
    have hk : k₁ ≠ k := fun hh => h.1 hh.symm
    simp [setKey, hk, ih h.2]

/-! ## Characterisation of `get` -/

theorem CacheInv.order_nodup {V : Type} {c : SWRCache V} (h : CacheInv c) :
    c.order.Nodup := h.2

theorem CacheInv.keys_nodup {V : Type} {c : SWRCache V} (h : CacheInv c) :
    (c.cache.map Prod.fst).Nodup := h.1.symm.nodup h.2

theorem CacheInv.mem_order_iff {V : Type} {c : SWRCache V} (h : CacheInv c)
    (k : String) : k ∈ c.order ↔ k ∈ c.cache.map Prod.fst :=
  h.1.symm.mem_iff

theorem get_absent {V : Type} {c : SWRCache V} {k : String} (now : Int)
    (h : lookupKey k c.cache = none) : c.get k now = some (none, c) := by
  simp [SWRCache.get, h]

theorem get_fresh {V : Type} {c : SWRCache V} {k : String} {v : V} {ts : Int}
    (now : Int) (hInv : CacheInv c) (hk : lookupKey k c.cache = some (v, ts))
    (hfresh : now - ts < c.ttl) :
    ∃ o, listRemove k c.order = some o ∧
      c.get k now = some (some v, { c with order := o ++ [k] }) := by
  have hord : k ∈ c.order :=
    (hInv.mem_order_iff k).mpr (mem_of_lookupKey_eq_some hk)
  obtain ⟨o, ho⟩ := Option.isSome_iff_exists.mp
    ((listRemove_isSome_iff k c.order).mpr hord)
  exact ⟨o, ho, by simp [SWRCache.get, hk, hfresh, ho]⟩

theorem get_expired {V : Type} {c : SWRCache V} {k : String} {v : V} {ts : Int}
    (now : Int) (hInv : CacheInv c) (hk : lookupKey k c.cache = some (v, ts))
    (hexp : ¬(now - ts < c.ttl)) :
    ∃ o, listRemove k c.order = some o ∧
      c.get k now = some (none, { c with cache := eraseKey k c.cache, order := o }) := by
  have hord : k ∈ c.order :=
    (hInv.mem_order_iff k).mpr (mem_of_lookupKey_eq_some hk)
  obtain ⟨o, ho⟩ := Option.isSome_iff_exists.mp
    ((listRemove_isSome_iff k c.order).mpr hord)
  have hdel : delKey k c.cache = some (eraseKey k c.cache) := by
    simp [delKey, hasKey, hk]
  exact ⟨o, ho, by simp [SWRCache.get, hk, hexp, hdel, ho]⟩

theorem get_inv {V : Type} {c c' : SWRCache V} {k : String} {now : Int}
    {r : Option V} (hInv : CacheInv c) (h : c.get k now = some (r, c')) :
    CacheInv c' := by
  cases hl : lookupKey k c.cache with
  | none =>
    rw [get_absent now hl] at h
    obtain ⟨-, rfl⟩ := Prod.mk.injEq .. ▸ Option.some.inj h
    exact hInv
  | some e =>
    obtain ⟨v, ts⟩ := e
    by_cases hfresh : now - ts < c.ttl
    · obtain ⟨o, ho, heq⟩ := get_fresh now hInv hl hfresh
      rw [heq] at h
      obtain ⟨-, rfl⟩ := Prod.mk.injEq .. ▸ Option.some.inj h
      have hperm : (c.cache.map Prod.fst).Perm (o ++ [k]) :=
        (hInv.1.trans (listRemove_perm ho)).trans (List.perm_append_singleton k o).symm
      have hnd : (o ++ [k]).Nodup :=
        ((List.perm_append_singleton k o).symm.nodup
          ((listRemove_perm ho).nodup hInv.2))
      exact ⟨hperm, hnd⟩
    · obtain ⟨o, ho, heq⟩ := get_expired now hInv hl hfresh
      rw [heq] at h
      obtain ⟨-, rfl⟩ := Prod.mk.injEq .. ▸ Option.some.inj h
      have hmem : k ∈ c.cache.map Prod.fst := mem_of_lookupKey_eq_some hl
      have h1 : (k :: (eraseKey k c.cache).map Prod.fst).Perm (k :: o) :=
        (map_fst_eraseKey_perm hmem).symm.trans (hInv.1.trans (listRemove_perm ho))
      exact ⟨h1.cons_inv, listRemove_nodup hInv.2 ho⟩

theorem get_isSome {V : Type} (c : SWRCache V) (k : String) (now : Int)
    (hInv : CacheInv c) : (c.get k now).isSome := by
  cases hl : lookupKey k c.cache with
  | none => rw [get_absent now hl]; rfl
  | some e =>
    obtain ⟨v, ts⟩ := e
    by_cases hfresh : now - ts < c.ttl
    · obtain ⟨o, -, heq⟩ := get_fresh now hInv hl hfresh
      rw [heq]; rfl
    · obtain ⟨o, -, heq⟩ := get_expired now hInv hl hfresh
      rw [heq]; rfl

/-! ## Characterisation of `set` -/

theorem set_present {V : Type} {c : SWRCache V} {k : String} {e : V × Int}
    (v : V) (now : Int) (hInv : CacheInv c) (hk : lookupKey k c.cache = some e) :
    ∃ o, listRemove k c.order = some o ∧
      c.set k v now =
        some { c with cache := setKey k (v, now) c.cache, order := o ++ [k] } := by
  have hord : k ∈ c.order :=
    (hInv.mem_order_iff k).mpr (mem_of_lookupKey_eq_some hk)
  obtain ⟨o, ho⟩ := Option.isSome_iff_exists.mp
    ((listRemove_isSome_iff k c.order).mpr hord)
  have hhas : hasKey k c.cache = true := by simp [hasKey, hk]
  exact ⟨o, ho, by simp [SWRCache.set, hhas, ho]⟩

theorem set_evict {V : Type} {c : SWRCache V} {k oldest : String}
    {rest : List String} (v : V) (now : Int) (hInv : CacheInv c)
    (hk : lookupKey k c.cache = none)
    (hfull : (c.cache.length : Int) ≥ c.max_size)
    (horder : c.order = oldest :: rest) :
    c.set k v now =
      some { c with cache := setKey k (v, now) (eraseKey oldest c.cache),
                    order := rest ++ [k] } := by
  have hhas : hasKey k c.cache = false := by simp [hasKey, hk]
  have holdest : oldest ∈ c.cache.map Prod.fst := by
    refine (hInv.mem_order_iff oldest).mp ?_
    rw [horder]; exact List.mem_cons_self _ _
  have hdel : delKey oldest c.cache = some (eraseKey oldest c.cache) := by
    have := (lookupKey_isSome_iff oldest c.cache).mpr holdest
    simp [delKey, hasKey, this]
  simp [SWRCache.set, hhas, hfull, horder, pop0, hdel]

theorem set_room {V : Type} {c : SWRCache V} {k : String} (v : V) (now : Int)
    (hk : lookupKey k c.cache = none)
    (hroom : ¬((c.cache.length : Int) ≥ c.max_size)) :
    c.set k v now =
      some { c with cache := setKey k (v, now) c.cache, order := c.order ++ [k] } := by
  have hhas : hasKey k c.cache = false := by simp [hasKey, hk]
  simp [SWRCache.set, hhas, hroom]

theorem set_inv {V : Type} {c c' : SWRCache V} {k : String} {v : V} {now : Int}
    (hInv : CacheInv c) (h : c.set k v now = some c') : CacheInv c' := by
  cases hl : lookupKey k c.cache with
  | some e =>
    obtain ⟨o, ho, heq⟩ := set_present v now hInv hl
    rw [heq] at h
    obtain rfl := Option.some.inj h
    have hmem : k ∈ c.cache.map Prod.fst := mem_of_lookupKey_eq_some hl
    constructor
    · show ((setKey k (v, now) c.cache).map Prod.fst).Perm (o ++ [k])
      rw [map_fst_setKey_mem _ hmem]
      exact (hInv.1.trans (listRemove_perm ho)).trans
        (List.perm_append_singleton k o).symm
    · exact (List.perm_append_singleton k o).symm.nodup
        ((listRemove_perm ho).nodup hInv.2)
  | none =>
    have hnotmem : k ∉ c.cache.map Prod.fst := (lookupKey_eq_none_iff k c.cache).mp hl
    have hnotord : k ∉ c.order := fun hmem => hnotmem ((hInv.mem_order_iff k).mp hmem)
    by_cases hfull : (c.cache.length : Int) ≥ c.max_size
    · cases horder : c.order with
      | nil =>
        rw [SWRCache.set] at h
        simp [hasKey, hl, hfull, horder, pop0] at h
      | cons oldest rest =>
        rw [set_evict v now hInv hl hfull horder] at h
        obtain rfl := Option.some.inj h
        have holdest : oldest ∈ c.cache.map Prod.fst := by
          refine (hInv.mem_order_iff oldest).mp ?_
          rw [horder]; exact List.mem_cons_self _ _
        have hperm1 : (c.cache.map Prod.fst).Perm
            (oldest :: (eraseKey oldest c.cache).map Prod.fst) :=
          map_fst_eraseKey_perm holdest
        have hperm2 : (oldest :: (eraseKey oldest c.cache).map Prod.fst).Perm
            (oldest :: rest) := hperm1.symm.trans (horder ▸ hInv.1)
        have hperm3 : ((eraseKey oldest c.cache).map Prod.fst).Perm rest :=
          hperm2.cons_inv
        have hknotleft : k ∉ (eraseKey oldest c.cache).map Prod.fst := fun hmem =>
          hnotmem (hperm1.symm.subset (List.mem_cons_of_mem _ hmem))
        have hknotrest : k ∉ rest := fun hmem =>
          hnotord (horder ▸ List.mem_cons_of_mem _ hmem)
        have hrestnd : rest.Nodup := by
          have := hInv.2; rw [horder] at this
          exact (List.nodup_cons.mp this).2
        constructor
        · show ((setKey k (v, now) (eraseKey oldest c.cache)).map Prod.fst).Perm
            (rest ++ [k])
          rw [map_fst_setKey_not_mem _ hknotleft]
          exact hperm3.append_right [k]
        · refine (List.perm_append_singleton k rest).symm.nodup ?_
          exact List.nodup_cons.mpr ⟨hknotrest, hrestnd⟩
    · rw [set_room v now hl hfull] at h
      obtain rfl := Option.some.inj h
      constructor
      · show ((setKey k (v, now) c.cache).map Prod.fst).Perm (c.order ++ [k])
        rw [map_fst_setKey_not_mem _ hnotmem]
        exact hInv.1.append_right [k]
      · refine (List.perm_append_singleton k c.order).symm.nodup ?_
        exact List.nodup_cons.mpr ⟨hnotord, hInv.2⟩

theorem set_isSome {V : Type} (c : SWRCache V) (k : String) (v : V) (now : Int)
    (hInv : CacheInv c) (hcap : 0 < c.max_size) : (c.set k v now).isSome := by
  cases hl : lookupKey k c.cache with
  | some e =>
    obtain ⟨o, -, heq⟩ := set_present v now hInv hl
    rw [heq]; rfl
  | none =>
    by_cases hfull : (c.cache.length : Int) ≥ c.max_size
    · cases horder : c.order with
      | nil =>
        exfalso
        have hlen : c.cache.length = c.order.length := by
          have := hInv.1.length_eq
          simpa using this
        rw [horder] at hlen
        simp only [List.length_nil] at hlen
        rw [hlen] at hfull
        norm_num at hfull
        omega
      | cons oldest rest =>
        rw [set_evict v now hInv hl hfull horder]; rfl
    · rw [set_room v now hl hfull]; rfl

/-! ## Length and frame lemmas -/

theorem length_eraseKey_le {V : Type} (k : String) (l : List (String × V × Int)) :
    (eraseKey k l).length ≤ l.length := by
  induction l with
  | nil => simp [eraseKey]
  | cons p rest ih =>
    obtain ⟨k₁, e⟩ := p
    by_cases hk : k₁ = k
    · simp only [eraseKey, if_pos hk, List.length_cons]
      omega
    · simp only [eraseKey, if_neg hk, List.length_cons]
      omega

theorem length_eraseKey_mem {V : Type} {k : String} {l : List (String × V × Int)}
    (h : k ∈ l.map Prod.fst) : (eraseKey k l).length + 1 = l.length := by
  have hp := (map_fst_eraseKey_perm h).length_eq
  simpa using hp.symm

theorem length_setKey_mem {V : Type} {k : String} (e : V × Int)
    {l : List (String × V × Int)} (h : k ∈ l.map Prod.fst) :
    (setKey k e l).length = l.length := by
  have := congrArg List.length (map_fst_setKey_mem e h)
  simpa using this

theorem length_setKey_not_mem {V : Type} {k : String} (e : V × Int)
    {l : List (String × V × Int)} (h : k ∉ l.map Prod.fst) :
    (setKey k e l).length = l.length + 1 := by
  have := congrArg List.length (map_fst_setKey_not_mem e h)
  simpa using this

theorem get_frame_len {V : Type} {c c' : SWRCache V} {k : String} {now : Int}
    {r : Option V} (hInv : CacheInv c) (h : c.get k now = some (r, c')) :
    c'.ttl = c.ttl ∧ c'.max_size = c.max_size ∧
      c'.cache.length ≤ c.cache.length := by
  cases hl : lookupKey k c.cache with
  | none =>
    rw [get_absent now hl] at h
    obtain ⟨-, rfl⟩ := Prod.mk.injEq .. ▸ Option.some.inj h
    exact ⟨rfl, rfl, le_refl _⟩
  | some e =>
    obtain ⟨v, ts⟩ := e
    by_cases hfresh : now - ts < c.ttl
    · obtain ⟨o, -, heq⟩ := get_fresh now hInv hl hfresh
      rw [heq] at h
      obtain ⟨-, rfl⟩ := Prod.mk.injEq .. ▸ Option.some.inj h
      exact ⟨rfl, rfl, le_refl _⟩
    · obtain ⟨o, -, heq⟩ := get_expired now hInv hl hfresh
      rw [heq] at h
      obtain ⟨-, rfl⟩ := Prod.mk.injEq .. ▸ Option.some.inj h
      exact ⟨rfl, rfl, length_eraseKey_le k c.cache⟩

theorem set_frame_len {V : Type} {c c' : SWRCache V} {k : String} {v : V} {now : Int}
    (hInv : CacheInv c) (h : c.set k v now = some c') :
    c'.ttl = c.ttl ∧ c'.max_size = c.max_size ∧
      ((c.cache.length : Int) ≤ c.max_size →
        (c'.cache.length : Int) ≤ c.max_size) := by
  cases hl : lookupKey k c.cache with
  | some e =>
    obtain ⟨o, -, heq⟩ := set_present v now hInv hl
    rw [heq] at h
    obtain rfl := Option.some.inj h
    have hmem : k ∈ c.cache.map Prod.fst := mem_of_lookupKey_eq_some hl
    refine ⟨rfl, rfl, fun hlen => ?_⟩
    show ((setKey k (v, now) c.cache).length : Int) ≤ c.max_size
    rw [length_setKey_mem _ hmem]
    exact hlen
  | none =>
    have hnotmem : k ∉ c.cache.map Prod.fst := (lookupKey_eq_none_iff k c.cache).mp hl
    by_cases hfull : (c.cache.length : Int) ≥ c.max_size
    · cases horder : c.order with
      | nil =>
        rw [SWRCache.set] at h
        simp [hasKey, hl, hfull, horder, pop0] at h
      | cons oldest rest =>
        rw [set_evict v now hInv hl hfull horder] at h
        obtain rfl := Option.some.inj h
        have holdest : oldest ∈ c.cache.map Prod.fst := by
          refine (hInv.mem_order_iff oldest).mp ?_
          rw [horder]; exact List.mem_cons_self _ _
        have hknotleft : k ∉ (eraseKey oldest c.cache).map Prod.fst := fun hmem =>
          hnotmem ((map_fst_eraseKey_perm holdest).symm.subset
            (List.mem_cons_of_mem _ hmem))
        refine ⟨rfl, rfl, fun hlen => ?_⟩
        show ((setKey k (v, now) (eraseKey oldest c.cache)).length : Int) ≤ c.max_size
        rw [length_setKey_not_mem _ hknotleft]
        have := length_eraseKey_mem holdest
        push_cast
        omega
    · rw [set_room v now hl hfull] at h
      obtain rfl := Option.some.inj h
      refine ⟨rfl, rfl, fun hlen => ?_⟩
      show ((setKey k (v, now) c.cache).length : Int) ≤ c.max_size
      rw [length_setKey_not_mem _ hnotmem]
      push_cast
      omega

theorem applyOp_props {V : Type} {c c₁ : SWRCache V} {op : CacheOp V}
    (hInv : CacheInv c) (h : applyOp c op = some c₁) :
    CacheInv c₁ ∧ c₁.ttl = c.ttl ∧ c₁.max_size = c.max_size ∧
      (0 < c.max_size → (c.cache.length : Int) ≤ c.max_size →
        (c₁.cache.length : Int) ≤ c.max_size) := by
  cases op with
  | get k now =>
    simp only [applyOp, Option.map_eq_some'] at h
    obtain ⟨⟨r, c'⟩, hg, hc⟩ := h
    cases hc
    obtain ⟨ht, hm, hl⟩ := get_frame_len hInv hg
    refine ⟨get_inv hInv hg, ht, hm, fun _ hlen => le_trans ?_ hlen⟩
    exact_mod_cast hl
  | set k v now =>
    simp only [applyOp] at h
    obtain ⟨ht, hm, hl⟩ := set_frame_len hInv h
    exact ⟨set_inv hInv h, ht, hm, fun _ hlen => hl hlen⟩
  | clearAll =>
    simp only [applyOp, Option.some.injEq] at h
    subst h
    refine ⟨⟨List.Perm.refl _, List.nodup_nil⟩, rfl, rfl, fun hcap _ => ?_⟩
    show (([] : List (String × V × Int)).length : Int) ≤ c.max_size
    simp
    omega

theorem runOps_props {V : Type} {c c' : SWRCache V} {ops : List (CacheOp V)}
    (hInv : CacheInv c) (h : runOps c ops = some c') :
    CacheInv c' ∧ c'.ttl = c.ttl ∧ c'.max_size = c.max_size ∧
      (0 < c.max_size → (c.cache.length : Int) ≤ c.max_size →
        (c'.cache.length : Int) ≤ c.max_size) := by
  induction ops generalizing c with
  | nil =>
    simp only [runOps, Option.some.injEq] at h
    subst h
    exact ⟨hInv, rfl, rfl, fun _ hl => hl⟩
  | cons op rest ih =>
    rw [runOps] at h
    cases ha : applyOp c op with
    | none => rw [ha] at h; simp at h
    | some c₁ =>
      rw [ha] at h
      obtain ⟨hInv₁, ht₁, hm₁, hlen₁⟩ := applyOp_props hInv ha
      obtain ⟨hInv', ht', hm', hlen'⟩ := ih hInv₁ h
      refine ⟨hInv', ht'.trans ht₁, hm'.trans hm₁, fun hcap hlen => ?_⟩
      have h1 : (c₁.cache.length : Int) ≤ c.max_size := hlen₁ hcap hlen
      have h2 := hlen' (by rw [hm₁]; exact hcap) (by rw [hm₁]; exact h1)
      rwa [hm₁] at h2

theorem get_frame_raw {V : Type} {c c' : SWRCache V} {k : String} {now : Int}
    {r : Option V} (h : c.get k now = some (r, c')) :
    c'.ttl = c.ttl ∧ c'.max_size = c.max_size := by
  rw [SWRCache.get] at h
  split at h
  · obtain ⟨-, rfl⟩ := Prod.mk.injEq .. ▸ Option.some.inj h
    exact ⟨rfl, rfl⟩
  · split at h
    · split at h
      · exact absurd h (by simp)
      · obtain ⟨-, rfl⟩ := Prod.mk.injEq .. ▸ Option.some.inj h
        exact ⟨rfl, rfl⟩
    · split at h
      · exact absurd h (by simp)
      · split at h
        · exact absurd h (by simp)
        · obtain ⟨-, rfl⟩ := Prod.mk.injEq .. ▸ Option.some.inj h
          exact ⟨rfl, rfl⟩

theorem set_frame_raw {V : Type} {c c' : SWRCache V} {k : String} {v : V}
    {now : Int} (h : c.set k v now = some c') :
    c'.ttl = c.ttl ∧ c'.max_size = c.max_size := by
  by_cases h1 : hasKey k c.cache = true
  · cases hr : listRemove k c.order with
    | none =>
      rw [SWRCache.set] at h
      simp [h1, hr] at h
    | some o =>
      rw [SWRCache.set] at h
      simp only [h1, if_true, hr] at h
      obtain rfl := Option.some.inj h
      exact ⟨rfl, rfl⟩
  · by_cases h2 : (c.cache.length : Int) ≥ c.max_size
    · cases ho : c.order with
      | nil =>
        rw [SWRCache.set] at h
        simp [h1, h2, ho, pop0] at h
      | cons oldest rest =>
        cases hd : delKey oldest c.cache with
        | none =>
          rw [SWRCache.set] at h
          simp [h1, h2, ho, pop0, hd] at h
        | some m =>
          rw [SWRCache.set] at h
          simp only [h1, if_false, Bool.false_eq_true, if_true, h2, if_pos h2,
            ho, pop0, hd] at h
          obtain rfl := Option.some.inj h
          exact ⟨rfl, rfl⟩
    · rw [SWRCache.set] at h
      simp only [h1, Bool.false_eq_true, if_false, if_neg h2] at h
      obtain rfl := Option.some.inj h
      exact ⟨rfl, rfl⟩

theorem applyOp_frame_raw {V : Type} {c c₁ : SWRCache V} {op : CacheOp V}
    (h : applyOp c op = some c₁) :
    c₁.ttl = c.ttl ∧ c₁.max_size = c.max_size := by
  cases op with
  | get k now =>
    simp only [applyOp, Option.map_eq_some'] at h
    obtain ⟨⟨r, c'⟩, hg, hc⟩ := h
    cases hc
    exact get_frame_raw hg
  | set k v now => exact set_frame_raw h
  | clearAll =>
    simp only [applyOp, Option.some.injEq] at h
    subst h
    exact ⟨rfl, rfl⟩

/-! ## Claim theorems -/

/-- C1: for every cache and key `k` present in the mapping, if
`now - inserted_at >= ttl` then `get k` returns absent and purges `k` from both
the mapping and the recency order, so a subsequent `get k` (with no intervening
`set`) also returns absent; if `now - inserted_at < ttl`, `get k` returns the
stored value. -/
theorem C1_get_ttl_expiry {V : Type} (c : SWRCache V) (k : String) (v : V)
    (ts now now' : Int) (hInv : CacheInv c)
    (hk : lookupKey k c.cache = some (v, ts)) :
    (now - ts ≥ c.ttl →
      ∃ c', c.get k now = some (none, c') ∧
        lookupKey k c'.cache = none ∧ k ∉ c'.order ∧
        c'.get k now' = some (none, c')) ∧
    (now - ts < c.ttl → ∃ c', c.get k now = some (some v, c')) := by
  constructor
  · intro hexp
    obtain ⟨o, ho, heq⟩ := get_expired now hInv hk (not_lt.mpr hexp)
    refine ⟨_, heq, ?_, ?_, ?_⟩
    · exact lookupKey_eraseKey_self hInv.keys_nodup
    · exact listRemove_not_mem hInv.2 ho
    · exact get_absent now' (lookupKey_eraseKey_self hInv.keys_nodup)
  · intro hfresh
    obtain ⟨o, ho, heq⟩ := get_fresh now hInv hk hfresh
    exact ⟨_, heq⟩

theorem C1_get_ttl_expiry_witness :
    CacheInv (⟨10, 5, [("a", 7, 0)], ["a"]⟩ : SWRCache Nat) ∧
    (∃ c', (⟨10, 5, [("a", 7, 0)], ["a"]⟩ : SWRCache Nat).get "a" 10 =
        some (none, c') ∧
      lookupKey "a" c'.cache = none ∧ "a" ∉ c'.order ∧
      c'.get "a" 11 = some (none, c')) := by
  have hInv : CacheInv (⟨10, 5, [("a", 7, 0)], ["a"]⟩ : SWRCache Nat) := by
    unfold CacheInv
    exact ⟨by decide, by decide⟩
  exact ⟨hInv,
    (C1_get_ttl_expiry _ "a" 7 0 10 11 hInv rfl).1 (by norm_num)⟩

/-- C5: the spec requires a `clear()` operation among the cache's exposed
operations, and callers do invoke it (`cache.clear()` at
src/api/moderation.py line 84), but the body of `class SWRCache` in
src/core/cache.py defines only `__init__`, `get` and `set` — `clear` is
absent, so every such call raises `AttributeError` at runtime. -/
theorem C5_clear_method_missing : "clear" ∉ SWRCache.definedMethods := by
  decide

/-- C7: for every cache satisfying the bijection invariant whose capacity is
positive, `get` and `set` are total: no internal `order.remove`, `order.pop(0)`
or `del` ever fails, so no exception is raised for any key and value. -/
theorem C7_get_set_total {V : Type} (c : SWRCache V) (k : String) (v : V)
    (now : Int) (hInv : CacheInv c) (hcap : 0 < c.max_size) :
    (c.get k now).isSome ∧ (c.set k v now).isSome :=
  ⟨get_isSome c k now hInv, set_isSome c k v now hInv hcap⟩

theorem C7_get_set_total_witness :
    ((⟨120, 2, [("a", 3, 0)], ["a"]⟩ : SWRCache Nat).get "b" 1).isSome ∧
    ((⟨120, 2, [("a", 3, 0)], ["a"]⟩ : SWRCache Nat).set "b" 4 1).isSome := by
  have hInv : CacheInv (⟨120, 2, [("a", 3, 0)], ["a"]⟩ : SWRCache Nat) := by
    unfold CacheInv
    exact ⟨by decide, by decide⟩
  exact C7_get_set_total _ "b" 4 1 hInv (by norm_num)

/-- C9: the constructor performs no validation, so construction with
`max_size <= 0` succeeds (the parameters are stored as given and the state is
empty); but the first `set` of any key then fails — the mapping is empty and
already at `len >= max_size`, so `order.pop(0)` is attempted on the empty
recency list, which raises `IndexError`. Hence `capacity > 0` is a needed
precondition for `set` to be total. -/
theorem C9_set_fails_on_nonpositive_capacity {V : Type} (ttl max_size : Int)
    (k : String) (v : V) (now : Int) (h : max_size ≤ 0) :
    SWRCache.init V ttl max_size =
      { ttl := ttl, max_size := max_size, cache := [], order := [] } ∧
    (SWRCache.init V ttl max_size).set k v now = none := by
  refine ⟨rfl, ?_⟩
  have h1 : hasKey k (SWRCache.init V ttl max_size).cache = false := rfl
  have h2 : (((SWRCache.init V ttl max_size).cache.length : Int) ≥
      (SWRCache.init V ttl max_size).max_size) := by
    show ((0 : Nat) : Int) ≥ max_size
    omega
  rw [SWRCache.set]
  simp [h1, h2, pop0, SWRCache.init, hasKey, lookupKey, h]

theorem C9_set_fails_on_nonpositive_capacity_witness :
    (0 : Int) ≤ 0 ∧ (SWRCache.init Nat 120 0).set "a" 1 5 = none :=
  ⟨le_refl 0, (C9_set_fails_on_nonpositive_capacity 120 0 "a" 1 5 (le_refl 0)).2⟩

/-- C2: from a cache constructed with `capacity > 0`, after any sequence of
`get`/`set`/`clear` operations the mapping holds at most `capacity` entries;
in particular inserting 3 distinct keys into a cache of capacity 2 leaves
exactly the 2 most recent keys retrievable via `get`. -/
theorem C2_capacity_bound {V : Type} (ttl cap : Int) (hcap : 0 < cap)
    (ops : List (CacheOp V)) (c : SWRCache V)
    (h : runOps (SWRCache.init V ttl cap) ops = some c) :
    (c.cache.length : Int) ≤ cap ∧
    (runOps (SWRCache.init Nat 100 2)
        [CacheOp.set "a" 1 0, CacheOp.set "b" 2 0, CacheOp.set "c" 3 0] =
      some ⟨100, 2, [("b", 2, 0), ("c", 3, 0)], ["b", "c"]⟩ ∧
     ((⟨100, 2, [("b", 2, 0), ("c", 3, 0)], ["b", "c"]⟩ : SWRCache Nat).get "a" 0).map
        Prod.fst = some none ∧
     ((⟨100, 2, [("b", 2, 0), ("c", 3, 0)], ["b", "c"]⟩ : SWRCache Nat).get "b" 0).map
        Prod.fst = some (some 2) ∧
     ((⟨100, 2, [("b", 2, 0), ("c", 3, 0)], ["b", "c"]⟩ : SWRCache Nat).get "c" 0).map
        Prod.fst = some (some 3)) := by
  constructor
  · have hInit : CacheInv (SWRCache.init V ttl cap) := by
      unfold CacheInv
      exact ⟨List.Perm.refl _, List.nodup_nil⟩
    have h0 : ((SWRCache.init V ttl cap).cache.length : Int) ≤
        (SWRCache.init V ttl cap).max_size := by
      show ((0 : Nat) : Int) ≤ cap
      omega
    exact (runOps_props hInit h).2.2.2 hcap h0
  · exact ⟨by decide, by decide, by decide, by decide⟩

theorem C2_capacity_bound_witness :
    ((SWRCache.init Nat 50 1).cache.length : Int) ≤ 1 :=
  (C2_capacity_bound 50 1 (by norm_num) [] (SWRCache.init Nat 50 1) rfl).1

/-- C3: when `set k v` is called with `k` not in the mapping and the mapping
already at or above capacity, exactly the front (least-recently-used) element
of the recency order is evicted, removed from both mapping and order, and all
other entries are untouched; since a successful `get` refreshes recency, with
capacity 2 and keys A, B inserted in that order, `get A` then `set C` evicts
B, not A. -/
theorem C3_lru_eviction {V : Type} (c : SWRCache V) (k oldest : String)
    (rest : List String) (v : V) (now : Int) (hInv : CacheInv c)
    (hk : lookupKey k c.cache = none)
    (hfull : (c.cache.length : Int) ≥ c.max_size)
    (horder : c.order = oldest :: rest) :
    (c.set k v now =
        some { c with cache := setKey k (v, now) (eraseKey oldest c.cache),
                      order := rest ++ [k] } ∧
      lookupKey oldest (setKey k (v, now) (eraseKey oldest c.cache)) = none ∧
      oldest ∉ rest ++ [k] ∧
      (∀ j, j ≠ oldest → j ≠ k →
        lookupKey j (setKey k (v, now) (eraseKey oldest c.cache)) =
          lookupKey j c.cache)) ∧
    (runOps (SWRCache.init Nat 100 2)
        [CacheOp.set "A" 1 0, CacheOp.set "B" 2 0, CacheOp.get "A" 0,
         CacheOp.set "C" 3 0] =
      some ⟨100, 2, [("A", 1, 0), ("C", 3, 0)], ["A", "C"]⟩ ∧
     lookupKey "B" [("A", (1 : Nat), (0 : Int)), ("C", 3, 0)] = none) := by
  have hknotmem : k ∉ c.cache.map Prod.fst := (lookupKey_eq_none_iff k c.cache).mp hk
  have holdest : oldest ∈ c.cache.map Prod.fst := by
    refine (hInv.mem_order_iff oldest).mp ?_
    rw [horder]; exact List.mem_cons_self _ _
  have hko : oldest ≠ k := fun he => hknotmem (he ▸ holdest)
  refine ⟨⟨set_evict v now hInv hk hfull horder, ?_, ?_, ?_⟩, by decide, by decide⟩
  · rw [lookupKey_setKey_ne hko _ _]
    exact lookupKey_eraseKey_self hInv.keys_nodup
  · have hnd := hInv.2
    rw [horder] at hnd
    have : oldest ∉ rest := (List.nodup_cons.mp hnd).1
    simp [this, hko]
  · intro j hjo hjk
    rw [lookupKey_setKey_ne hjk _ _]
    exact lookupKey_eraseKey_ne hjo _

theorem C3_lru_eviction_witness :
    (⟨100, 2, [("x", 1, 0), ("y", 2, 0)], ["x", "y"]⟩ : SWRCache Nat).set "z" 9 5 =
      some ⟨100, 2, setKey "z" (9, 5) (eraseKey "x" [("x", 1, 0), ("y", 2, 0)]),
            ["y"] ++ ["z"]⟩ := by
  have hInv :
      CacheInv (⟨100, 2, [("x", 1, 0), ("y", 2, 0)], ["x", "y"]⟩ : SWRCache Nat) := by
    unfold CacheInv
    exact ⟨by decide, by decide⟩
  exact (C3_lru_eviction _ "z" "x" ["y"] 9 5 hInv rfl (by decide) rfl).1.1

/-- C4: from any constructed cache, after any sequence of `get`/`set`/`clear`
operations that completes without an exception, the set of keys in the mapping
equals the set of keys in the recency order and the recency order has no
duplicates. -/
theorem C4_bijection_invariant {V : Type} (ttl cap : Int) (ops : List (CacheOp V))
    (c : SWRCache V) (h : runOps (SWRCache.init V ttl cap) ops = some c) :
    c.order.Nodup ∧ ∀ k : String, k ∈ c.cache.map Prod.fst ↔ k ∈ c.order := by
  have hInit : CacheInv (SWRCache.init V ttl cap) := by
    unfold CacheInv
    exact ⟨List.Perm.refl _, List.nodup_nil⟩
  have hInv := (runOps_props hInit h).1
  exact ⟨hInv.2, fun k => hInv.1.mem_iff⟩

theorem C4_bijection_invariant_witness :
    (⟨100, 2, [("A", 1, 0), ("C", 3, 0)], ["A", "C"]⟩ : SWRCache Nat).order.Nodup ∧
    ("A" ∈ ((⟨100, 2, [("A", 1, 0), ("C", 3, 0)], ["A", "C"]⟩ : SWRCache Nat)).cache.map
        Prod.fst ↔
     "A" ∈ ((⟨100, 2, [("A", 1, 0), ("C", 3, 0)], ["A", "C"]⟩ : SWRCache Nat)).order) := by
  have h := C4_bijection_invariant 100 2
    [CacheOp.set "A" 1 0, CacheOp.set "B" 2 0, CacheOp.get "A" 0, CacheOp.set "C" 3 0]
    ⟨100, 2, [("A", 1, 0), ("C", 3, 0)], ["A", "C"]⟩ (by decide)
  exact ⟨h.1, h.2 "A"⟩

/-- C6: overwriting an existing key `k` via `set k v₂` leaves exactly one entry
for `k`, storing `(v₂, now)` (timestamp refreshed), moves `k` to the
most-recently-used end of the recency order, keeps the mapping's size unchanged
(so nothing is evicted, even at capacity), leaves every other entry untouched,
and a subsequent fresh `get k` returns `v₂`. -/
theorem C6_set_overwrite {V : Type} (c : SWRCache V) (k : String) (v₁ v₂ : V)
    (ts now now' : Int) (hInv : CacheInv c)
    (hk : lookupKey k c.cache = some (v₁, ts)) :
    ∃ c', c.set k v₂ now = some c' ∧
      lookupKey k c'.cache = some (v₂, now) ∧
      (c'.cache.map Prod.fst).count k = 1 ∧
      c'.order.getLast? = some k ∧
      c'.cache.length = c.cache.length ∧
      (∀ j, j ≠ k → lookupKey j c'.cache = lookupKey j c.cache) ∧
      (now' - now < c.ttl → ∃ c'', c'.get k now' = some (some v₂, c'')) := by
  obtain ⟨o, ho, heq⟩ := set_present v₂ now hInv hk
  have hmem : k ∈ c.cache.map Prod.fst := mem_of_lookupKey_eq_some hk
  refine ⟨_, heq, lookupKey_setKey_self k (v₂, now) c.cache, ?_, ?_, ?_, ?_, ?_⟩
  · show ((setKey k (v₂, now) c.cache).map Prod.fst).count k = 1
    rw [map_fst_setKey_mem _ hmem]
    exact List.count_eq_one_of_mem hInv.keys_nodup hmem
  · show (o ++ [k]).getLast? = some k
    rw [List.getLast?_append_cons]
    rfl
  · exact length_setKey_mem _ hmem
  · exact fun j hj => lookupKey_setKey_ne hj _ _
  · intro hfresh
    obtain ⟨o₂, ho₂, heq₂⟩ := get_fresh now' (set_inv hInv heq)
      (lookupKey_setKey_self k (v₂, now) c.cache) hfresh
    exact ⟨_, heq₂⟩

theorem C6_set_overwrite_witness :
    ∃ c', (⟨100, 1, [("a", 1, 0)], ["a"]⟩ : SWRCache Nat).set "a" 2 5 = some c' ∧
      lookupKey "a" c'.cache = some (2, 5) ∧
      (c'.cache.map Prod.fst).count "a" = 1 ∧
      c'.order.getLast? = some "a" ∧
      c'.cache.length = 1 := by
  have hInv : CacheInv (⟨100, 1, [("a", 1, 0)], ["a"]⟩ : SWRCache Nat) := by
    unfold CacheInv
    exact ⟨by decide, by decide⟩
  obtain ⟨c', h1, h2, h3, h4, h5, -, -⟩ :=
    C6_set_overwrite _ "a" 1 2 0 5 6 hInv rfl
  exact ⟨c', h1, h2, h3, h4, h5.trans rfl⟩

/-- C8: no cache operation modifies `ttl` or `max_size`: after any sequence of
`get`/`set`/`clear` operations that completes without an exception, both
fields hold the values they had at the start. -/
theorem C8_config_immutable {V : Type} (c c' : SWRCache V) (ops : List (CacheOp V))
    (h : runOps c ops = some c') :
    c'.ttl = c.ttl ∧ c'.max_size = c.max_size := by
  induction ops generalizing c with
  | nil =>
    simp only [runOps, Option.some.injEq] at h
    subst h
    exact ⟨rfl, rfl⟩
  | cons op rest ih =>
    rw [runOps] at h
    cases ha : applyOp c op with
    | none => rw [ha] at h; simp at h
    | some c₁ =>
      rw [ha] at h
      obtain ⟨ht₁, hm₁⟩ := applyOp_frame_raw ha
      obtain ⟨ht', hm'⟩ := ih c₁ h
      exact ⟨ht'.trans ht₁, hm'.trans hm₁⟩

theorem C8_config_immutable_witness :
    (⟨7, 3, [("a", 1, 2)], ["a"]⟩ : SWRCache Nat).ttl =
      (⟨7, 3, [], []⟩ : SWRCache Nat).ttl ∧
    (⟨7, 3, [("a", 1, 2)], ["a"]⟩ : SWRCache Nat).max_size =
      (⟨7, 3, [], []⟩ : SWRCache Nat).max_size :=
  C8_config_immutable _ _ [CacheOp.set "a" 1 2] (by decide)

/-- C10: with `ttl <= 0` (and time not running backwards), a `get` on any key
present in the mapping returns absent and purges the entry — even immediately
after the `set`, at the same timestamp, since freshness requires
`now - timestamp < ttl` strictly; the entry written by `set` does occupy the
mapping until that next `get`. -/
theorem C10_nonpositive_ttl {V : Type} (c : SWRCache V) (k : String) (v : V)
    (ts now : Int) (hInv : CacheInv c) (httl : c.ttl ≤ 0) (hts : ts ≤ now)
    (hk : lookupKey k c.cache = some (v, ts)) :
    (∃ c', c.get k now = some (none, c') ∧ lookupKey k c'.cache = none ∧
      k ∉ c'.order) ∧
    (∀ (v' : V) (t : Int) (c₁ : SWRCache V), c.set k v' t = some c₁ →
      lookupKey k c₁.cache = some (v', t) ∧
      ∃ c₂, c₁.get k t = some (none, c₂) ∧ lookupKey k c₂.cache = none) := by
  constructor
  · have hexp : ¬(now - ts < c.ttl) := by omega
    obtain ⟨o, ho, heq⟩ := get_expired now hInv hk hexp
    exact ⟨_, heq, lookupKey_eraseKey_self hInv.keys_nodup,
      listRemove_not_mem hInv.2 ho⟩
  · intro v' t c₁ hset
    obtain ⟨o, ho, heq⟩ := set_present v' t hInv hk
    rw [heq] at hset
    obtain rfl := Option.some.inj hset
    have hInv₁ := set_inv hInv heq
    have hlook : lookupKey k (setKey k (v', t) c.cache) = some (v', t) :=
      lookupKey_setKey_self k (v', t) c.cache
    refine ⟨hlook, ?_⟩
    have hexp₁ : ¬(t - t < c.ttl) := by omega
    obtain ⟨o₂, ho₂, heq₂⟩ := get_expired t hInv₁ hlook hexp₁
    exact ⟨_, heq₂, lookupKey_eraseKey_self hInv₁.keys_nodup⟩

theorem C10_nonpositive_ttl_witness :
    (∃ c', (⟨0, 2, [("a", 1, 0)], ["a"]⟩ : SWRCache Nat).get "a" 0 =
        some (none, c') ∧
      lookupKey "a" c'.cache = none ∧ "a" ∉ c'.order) ∧
    (lookupKey "a" (⟨0, 2, [("a", 5, 3)], ["a"]⟩ : SWRCache Nat).cache =
        some (5, 3) ∧
     ∃ c₂, (⟨0, 2, [("a", 5, 3)], ["a"]⟩ : SWRCache Nat).get "a" 3 =
        some (none, c₂) ∧ lookupKey "a" c₂.cache = none) := by
  have hInv : CacheInv (⟨0, 2, [("a", 1, 0)], ["a"]⟩ : SWRCache Nat) := by
    unfold CacheInv
    exact ⟨by decide, by decide⟩
  have h := C10_nonpositive_ttl _ "a" 1 0 0 hInv (le_refl 0) (le_refl 0) rfl
  exact ⟨h.1, h.2 5 3 _ (by decide)⟩

-- sanity checks on concrete runs (matching spec §8 scenarios)
example :
    (SWRCache.init Nat 120 500).set "comments:42" 7 0 =
      some { ttl := 120, max_size := 500, cache := [("comments:42", 7, 0)],
             order := ["comments:42"] } := by decide

example :
    ((SWRCache.init Nat 120 500).set "comments:42" 7 0 >>= fun c =>
      c.get "comments:42" 0) =
      some (some 7, { ttl := 120, max_size := 500, cache := [("comments:42", 7, 0)],
                      order := ["comments:42"] }) := by decide

example :
    ((SWRCache.init Nat 120 500).set "comments:42" 7 0 >>= fun c =>
      c.get "comments:42" 120) =
      some (none, SWRCache.init Nat 120 500) := by decide
